import Mathlib

/-!
Verification of the alloy-hover-lsp server core
(crates/alloy-hover-lsp/src/main.rs).

Strings are modelled at the granularity of Unicode scalar values
(`List Char`).  The source indexes a selected text row both by byte
and by scalar value (chars().nth);
on ASCII text, the scope of every scenario in the spec, the two
coincide, and the model uses a single index space.
-/

namespace AlloyHover

/-- The double-quote character, written via its code point 34. -/
def dq : Char := Char.ofNat 34

/-- Word-constituent predicate from Backend.hover: alphanumeric,
underscore or period.  Rust char.is_alphanumeric is Unicode-aware; it
agrees with Char.isAlphanum on ASCII text. -/
def is_word (ch : Char) : Bool := ch.isAlphanum || ch = '_' || ch = '.'

/-- Backward scan of Backend.hover: while start > 0 and the character
just before start is word-constituent, decrement start.  A
missing character (index out of range) reads as not word-constituent,
as in the source where nth yields nothing and unwrap_or gives false. -/
def scanBack (ln : List Char) : Nat → Nat
  | 0 => 0
  | s + 1 => if ((ln[s]?).map is_word).getD false then scanBack ln s else s + 1

/-- The forward-scan loop of Backend.hover, with an explicit bound on
the number of iterations.  Each iteration requires the index to be
below ln.length, so ln.length - e iterations always suffice. -/
def scanFwdAux (ln : List Char) : Nat → Nat → Nat
  | 0, e => e
  | fuel + 1, e =>
    if decide (e < ln.length) && ((ln[e]?).map is_word).getD false then
      scanFwdAux ln fuel (e + 1)
    else e

/-- Forward scan of Backend.hover: while the index is below the
length and the character at it is word-constituent, increment it. -/
def scanFwd (ln : List Char) (e : Nat) : Nat :=
  scanFwdAux ln (ln.length - e) e

/-- Rust str.trim_matches with a single-character pattern: remove every
leading and every trailing occurrence of that character. -/
def trimMatches (q : Char) (s : List Char) : List Char :=
  (((s.dropWhile (· == q)).reverse).dropWhile (· == q)).reverse

/-- The slice get(start..end) taken by Backend.hover between the
two scan boundaries, before quote stripping. -/
def rawWord (ln : List Char) (col : Nat) : List Char :=
  (ln.drop (scanBack ln col)).take (scanFwd ln col - scanBack ln col)

/-- The lookup key of Backend.hover: the scanned slice with leading and
trailing double quotes stripped. -/
def wordAt (ln : List Char) (col : Nat) : List Char :=
  trimMatches dq (rawWord ln col)

/-- Splitting on the newline character; the empty input yields one
empty piece, mirroring str.split before the lines postprocessing. -/
def splitNl : List Char → List (List Char)
  | [] => [[]]
  | c :: cs =>
    if c = '\n' then [] :: splitNl cs
    else
      match splitNl cs with
      | [] => [[c]]
      | l :: ls => (c :: l) :: ls

/-- Remove one trailing carriage return, as Rust lines does on every
piece that was terminated by a newline. -/
def stripCR (l : List Char) : List Char :=
  if l.getLast? = some '\r' then l.dropLast else l

/-- Rust str.lines: split at newlines, remove a carriage return at the
end of each terminated piece, and drop the optional final empty piece
produced by a trailing newline. -/
def linesOf (cs : List Char) : List (List Char) :=
  match (splitNl cs).reverse with
  | [] => []
  | lastPiece :: revInit =>
    let terminated := (revInit.reverse).map stripCR
    if lastPiece = [] then terminated else terminated ++ [lastPiece]

/-- The docs dictionary of struct Docs, modelled as a lookup function
from key to payload. -/
def Docs := String → Option String

/-- Docs.get: clone the entry for the key, when present. -/
def Docs.get (d : Docs) (key : String) : Option String := d key

/-- The files map guarded by the reader-writer lock in Backend,
modelled as a lookup function from URI to full text. -/
def Store := String → Option String

/-- HashMap.insert on the files map: overwrite the entry for the key. -/
def Store.insert (s : Store) (uri text : String) : Store :=
  fun u => if u = uri then some text else s u

/-- Reading the files map: the current text for the URI, if any. -/
def Store.get (s : Store) (uri : String) : Option String := s uri

/-- Backend.did_open: insert the opened text under its URI. -/
def did_open (s : Store) (uri text : String) : Store :=
  s.insert uri text

/-- Backend.did_change: apply only the last content change of the
batch, as full-document text; an empty batch changes nothing. -/
def did_change (s : Store) (uri : String) (changes : List String) : Store :=
  match changes.getLast? with
  | some t => s.insert uri t
  | none => s

/-- The hover response of Backend.hover, flattened: value is the
markdown payload, the four coordinates are the fields of the returned
Range. -/
structure Hover where
  value : String
  startLine : Nat
  startChar : Nat
  endLine : Nat
  endChar : Nat
deriving DecidableEq

/-- Hover resolution on the selected row of text: scan, slice, strip quotes,
reject the empty word, look up the key, and on a hit return the
payload with the pre-stripping boundaries. -/
def resolveLine (l : List Char) (pline pchar : Nat) (docs : Docs) : Option Hover :=
  if (wordAt l pchar).isEmpty then none
  else
    match docs.get (String.mk (wordAt l pchar)) with
    | some md =>
      some { value := md, startLine := pline, startChar := scanBack l pchar,
             endLine := pline, endChar := scanFwd l pchar }
    | none => none

/-- Body of Backend.hover once the text is found: select the row at
the queried index, treating an out-of-range index as empty,
then resolve on that row. -/
def resolve (text : String) (pline pchar : Nat) (docs : Docs) : Option Hover :=
  resolveLine ((linesOf text.data).getD pline []) pline pchar docs

/-- Backend.hover: a missing document yields Ok(None); otherwise the
resolver runs on the stored text.  The second component is the files
map the handler leaves behind; the handler only reads the lock. -/
def hover (files : Store) (docs : Docs) (uri : String) (pline pchar : Nat) :
    Except String (Option Hover) × Store :=
  match files uri with
  | none => (Except.ok none, files)
  | some text => (Except.ok (resolve text pline pchar docs), files)

/-- Docs.load.  The filesystem read and the toml parse are calls into
external libraries; they enter the model as the functions fsRead and
parseToml, where none is the failing outcome.  The error strings are
the two context messages attached in the source. -/
def Docs.load (fsRead : String → Option String) (parseToml : String → Option Docs)
    (path : String) : Except String Docs :=
  match fsRead path with
  | none => Except.error ("reading " ++ path)
  | some text =>
    match parseToml text with
    | none => Except.error "parsing alloy-hover.toml"
    | some map => Except.ok map

/-- Outcome of fn main before the serve loop: either the process exits
with the load error, or it starts serving with the loaded docs. -/
inductive MainOutcome where
  | exited (cause : String)
  | served (docs : Docs)

/-- fn main: read the docs path from the ALLOY_HOVER_DOCS environment
variable with its default, load the dictionary, and only on success
proceed to serve; the question-mark operator turns a load error into
process exit before any request is handled. -/
def main (fsRead : String → Option String) (parseToml : String → Option Docs)
    (envDocs : Option String) : MainOutcome :=
  match Docs.load fsRead parseToml (envDocs.getD "docs/alloy-hover.toml") with
  | Except.error e => MainOutcome.exited e
  | Except.ok docs => MainOutcome.served docs

/-- Dictionary of spec scenario 2. -/
def dFoo : Docs := fun k => if k = "foo" then some "Foo docs" else none

/-- Dictionary of spec scenario 1. -/
def dCast : Docs := fun k => if k = "alloy.cast" then some "Casts a value" else none

/-- Store holding the document of spec scenario 2. -/
def fCall : Store := fun u => if u = "file:///a" then some "call(\"foo\")" else none

/-- Store holding the document of spec scenario 1. -/
def fLet : Store := fun u => if u = "file:///b" then some "let x = alloy.cast(y);" else none

/-- C6: with dictionary mapping alloy.cast to its payload and document
text let x = alloy.cast(y);, a hover at row 0, column 10 returns the
payload with range columns 8 to 18: the dotted identifier is one key. -/
theorem dotted_identifier_scenario :
    (hover fLet dCast "file:///b" 0 10).1 =
      Except.ok (some ⟨"Casts a value", 0, 8, 0, 18⟩) := by
  rfl

/-- C10: a change notification with an empty batch of content changes
is a no-op on the store: every subsequent get is unchanged. -/
theorem empty_change_batch_noop (s : Store) (uri uri2 : String) :
    did_change s uri [] = s ∧
    Store.get (did_change s uri []) uri2 = Store.get s uri2 :=
  ⟨rfl, rfl⟩

/-- C4: with a nonempty batch of changes, only the last text is
applied: the store becomes exactly the insert of the last text, so the
earlier changes of the batch are discarded, and get returns that
text. -/
theorem last_write_wins (s : Store) (uri : String) (cs : List String) (t : String)
    (h : cs.getLast? = some t) :
    did_change s uri cs = Store.insert s uri t ∧
    Store.get (did_change s uri cs) uri = some t := by
  have h1 : did_change s uri cs = Store.insert s uri t := by
    unfold did_change
    rw [h]
  refine ⟨h1, ?_⟩
  rw [h1]
  simp [Store.get, Store.insert]

/-- Witness for C4 at the batch of changes a then b. -/
theorem last_write_wins_witness :
    Store.get (did_change (fun _ => none) "file:///a" ["a", "b"]) "file:///a" = some "b" :=
  (last_write_wins (fun _ => none) "file:///a" ["a", "b"] "b" rfl).2

/-- C5: opening twice with the same text, or delivering the same
change batch twice, leaves the store in the same state as doing it
once, and get observes the same text either way. -/
theorem open_change_idempotent (s : Store) (uri text : String) (cs : List String) :
    did_open (did_open s uri text) uri text = did_open s uri text ∧
    Store.get (did_open (did_open s uri text) uri text) uri =
      Store.get (did_open s uri text) uri ∧
    did_change (did_change s uri cs) uri cs = did_change s uri cs := by
  have hopen : did_open (did_open s uri text) uri text = did_open s uri text := by
    funext u
    simp only [did_open, Store.insert]
    split <;> rfl
  refine ⟨hopen, by rw [hopen], ?_⟩
  cases h : cs.getLast? with
  | none => simp [did_change, h]
  | some t =>
    simp only [did_change, h]
    funext u
    simp only [Store.insert]
    split <;> rfl

/-- The backward scan never moves the boundary to the right. -/
lemma scanBack_le (ln : List Char) : ∀ s, scanBack ln s ≤ s
  | 0 => Nat.le_refl 0
  | s + 1 => by
    rw [scanBack]
    split
    · exact Nat.le_trans (scanBack_le ln s) (Nat.le_succ s)
    · exact Nat.le_refl _

/-- Every character strictly between the backward-scan boundary and
the starting column is word-constituent. -/
lemma scanBack_word (ln : List Char) :
    ∀ s i, scanBack ln s ≤ i → i < s → ((ln[i]?).map is_word).getD false = true := by
  intro s
  induction s with
  | zero => intro i h1 h2; omega
  | succ s ih =>
    intro i h1 h2
    by_cases hc : ((ln[s]?).map is_word).getD false = true
    · rw [scanBack, if_pos hc] at h1
      rcases Nat.lt_succ_iff_lt_or_eq.mp h2 with h | h
      · exact ih i h1 h
      · exact h ▸ hc
    · rw [scanBack, if_neg hc] at h1
      omega

/-- If the full run from a to the cursor is word-constituent and the
character before a is not, the backward scan stops exactly at a. -/
lemma scanBack_run (ln : List Char) (a : Nat)
    (hleft : a = 0 ∨ ((ln[a - 1]?).map is_word).getD false = false) :
    ∀ k, (∀ i, a ≤ i → i < a + k → ((ln[i]?).map is_word).getD false = true) →
      scanBack ln (a + k) = a := by
  intro k
  induction k with
  | zero =>
    intro _
    cases ha : a with
    | zero => rfl
    | succ a0 =>
      rcases hleft with h | h
      · omega
      · show scanBack ln (a0 + 1) = a0 + 1
        rw [scanBack, if_neg]
        rw [ha] at h
        simp only [Nat.add_sub_cancel] at h
        simp [h]
  | succ k ih =>
    intro hrun
    have hs : a + (k + 1) = (a + k) + 1 := rfl
    rw [hs, scanBack, if_pos (hrun (a + k) (by omega) (by omega))]
    exact ih (fun i h1 h2 => hrun i h1 (by omega))

/-- The forward-scan loop never moves the boundary to the left. -/
lemma scanFwdAux_ge (ln : List Char) : ∀ fuel e, e ≤ scanFwdAux ln fuel e
  | 0, e => Nat.le_refl e
  | fuel + 1, e => by
    rw [scanFwdAux]
    split
    · exact Nat.le_trans (Nat.le_succ e) (scanFwdAux_ge ln fuel (e + 1))
    · exact Nat.le_refl e

/-- Every character from the cursor up to the forward-scan boundary is
word-constituent. -/
lemma scanFwdAux_word (ln : List Char) :
    ∀ fuel e i, e ≤ i → i < scanFwdAux ln fuel e →
      ((ln[i]?).map is_word).getD false = true := by
  intro fuel
  induction fuel with
  | zero =>
    intro e i h1 h2
    rw [scanFwdAux] at h2
    omega
  | succ fuel ih =>
    intro e i h1 h2
    rw [scanFwdAux] at h2
    split at h2
    · rename_i hc
      rcases Nat.eq_or_lt_of_le h1 with h | h
      · have := (Bool.and_eq_true _ _).mp hc
        exact h ▸ this.2
      · exact ih (e + 1) i h h2
    · omega

/-- If everything from the cursor up to b is word-constituent and the
loop condition fails at b, the forward scan stops exactly at b. -/
lemma scanFwdAux_run (ln : List Char) (b : Nat)
    (hright : (decide (b < ln.length) && ((ln[b]?).map is_word).getD false) = false) :
    ∀ fuel e, e ≤ b → b - e ≤ fuel →
      (∀ i, e ≤ i → i < b → ((ln[i]?).map is_word).getD false = true) →
      scanFwdAux ln fuel e = b := by
  intro fuel
  induction fuel with
  | zero =>
    intro e h1 h2 _
    have he : e = b := by omega
    rw [scanFwdAux, he]
  | succ fuel ih =>
    intro e h1 h2 hrun
    rcases Nat.eq_or_lt_of_le h1 with he | hlt
    · rw [scanFwdAux, he, hright]
      simp
    · have hw := hrun e (Nat.le_refl e) hlt
      have hlen : e < ln.length := by
        by_contra hge
        have : ln[e]? = none := by
          rw [List.getElem?_eq_none]
          omega
        rw [this] at hw
        simp at hw
      have hw2 : is_word ln[e] = true := by
        rw [List.getElem?_eq_getElem hlen] at hw
        simpa using hw
      rw [scanFwdAux, if_pos (by simp [hlen, hw2])]
      exact ih (e + 1) hlt (by omega) (fun i hi1 hi2 => hrun i (by omega) hi2)

/-- A member of a drop-then-take slice sits at an index inside the
sliced interval. -/
lemma mem_drop_take {c : Char} (l : List Char) (a k : Nat)
    (h : c ∈ (l.drop a).take k) : ∃ i, a ≤ i ∧ i < a + k ∧ l[i]? = some c := by
  rw [List.mem_iff_getElem?] at h
  obtain ⟨j, hj⟩ := h
  rw [List.getElem?_take] at hj
  split at hj
  · rename_i hjk
    rw [List.getElem?_drop] at hj
    exact ⟨a + j, by omega, by omega, hj⟩
  · exact absurd hj (by simp)

/-- Every character of the scanned slice is word-constituent: to the
left of the cursor this comes from the backward scan, to the right
from the forward scan. -/
lemma rawWord_word (ln : List Char) (col : Nat) :
    ∀ c ∈ rawWord ln col, is_word c = true := by
  intro c hc
  obtain ⟨i, h1, h2, hget⟩ := mem_drop_take ln _ _ hc
  have hcol_ge : scanBack ln col ≤ col := scanBack_le ln col
  have hcol_le : col ≤ scanFwd ln col := scanFwdAux_ge ln _ col
  have hi2 : i < scanFwd ln col := by omega
  by_cases hlt : i < col
  · have := scanBack_word ln col i h1 hlt
    rw [hget] at this
    simpa using this
  · have := scanFwdAux_word ln (ln.length - col) col i (by omega) hi2
    rw [hget] at this
    simpa using this

/-- Dropping a character that never occurs in the list changes
nothing. -/
lemma dropWhile_beq_eq_self (q : Char) (xs : List Char)
    (h : ∀ c ∈ xs, c ≠ q) : xs.dropWhile (· == q) = xs := by
  cases xs with
  | nil => rfl
  | cons x xs =>
    have hx : (x == q) = false := by
      have := h x (List.mem_cons_self x xs)
      simp [this]
    simp [List.dropWhile_cons, hx]

/-- Quote stripping is the identity on a list free of the stripped
character. -/
lemma trimMatches_eq_self (q : Char) (xs : List Char)
    (h : ∀ c ∈ xs, c ≠ q) : trimMatches q xs = xs := by
  unfold trimMatches
  rw [dropWhile_beq_eq_self q xs h]
  rw [dropWhile_beq_eq_self q xs.reverse (fun c hc => h c (List.mem_reverse.mp hc))]
  exact List.reverse_reverse xs

/-- The double quote is not word-constituent. -/
lemma is_word_dq : is_word dq = false := by decide

set_option linter.unusedVariables false in
/-- C9: on a row of ASCII text, the slice between the scan boundaries
holds word-constituent characters only, hence never a double quote;
quote stripping therefore leaves it unchanged and the lookup key is
exactly the text of the highlighted range. -/
theorem raw_word_no_quotes (ln : List Char) (col : Nat)
    (hascii : ∀ c ∈ ln, c.toNat < 128) :
    (∀ c ∈ rawWord ln col, is_word c = true) ∧
    dq ∉ rawWord ln col ∧
    wordAt ln col = rawWord ln col := by
  refine ⟨rawWord_word ln col, ?_, ?_⟩
  · intro hmem
    have := rawWord_word ln col dq hmem
    rw [is_word_dq] at this
    exact Bool.false_ne_true this
  · exact trimMatches_eq_self dq _ (fun c hc heq => by
      have := rawWord_word ln col c hc
      rw [heq, is_word_dq] at this
      exact Bool.false_ne_true this)

/-- Witness for C9 on the ASCII row foo at column 1. -/
theorem raw_word_no_quotes_witness :
    wordAt ("foo".data) 1 = rawWord ("foo".data) 1 :=
  (raw_word_no_quotes ("foo".data) 1 (by decide)).2.2

/-- C3: for any text and a cursor sitting anywhere on a maximal run of
word-constituent characters of the selected row, the scan boundaries
equal exactly the run boundaries, independent of where within the run
the cursor sits, and any returned hover hit highlights exactly that
run. -/
theorem word_extraction_maximal (text : String) (docs : Docs) (ln : List Char)
    (pline a b p : Nat)
    (hl : (linesOf text.data).getD pline [] = ln)
    (hrun : ∀ i, a ≤ i → i < b → ((ln[i]?).map is_word).getD false = true)
    (hleft : a = 0 ∨ ((ln[a - 1]?).map is_word).getD false = false)
    (hright : (decide (b < ln.length) && ((ln[b]?).map is_word).getD false) = false)
    (hap : a ≤ p) (hpb : p < b) :
    scanBack ln p = a ∧ scanFwd ln p = b ∧
    ∀ h, resolve text pline p docs = some h → h.startChar = a ∧ h.endChar = b := by
  have hsb : scanBack ln p = a := by
    have h0 := scanBack_run ln a hleft (p - a)
      (fun i h1 h2 => hrun i h1 (by omega))
    rwa [Nat.add_sub_cancel' hap] at h0
  have hble : b ≤ ln.length := by
    have hw := hrun (b - 1) (by omega) (by omega)
    by_contra hgt
    rw [List.getElem?_eq_none (by omega)] at hw
    simp at hw
  have hsf : scanFwd ln p = b := by
    unfold scanFwd
    exact scanFwdAux_run ln b hright (ln.length - p) p (Nat.le_of_lt hpb) (by omega)
      (fun i h1 h2 => hrun i (by omega) h2)
  refine ⟨hsb, hsf, ?_⟩
  intro h hres
  unfold resolve at hres
  rw [hl] at hres
  unfold resolveLine at hres
  split at hres
  · exact absurd hres (by simp)
  · split at hres
    · cases hres
      exact ⟨hsb, hsf⟩
    · exact absurd hres (by simp)

/-- Witness for C3 on the row ab cd, with the maximal run cd and the
cursor on its second character. -/
theorem word_extraction_maximal_witness :
    scanBack ("ab cd".data) 4 = 3 ∧ scanFwd ("ab cd".data) 4 = 5 := by
  have h := word_extraction_maximal "ab cd" dFoo ("ab cd".data) 0 3 5 4 rfl
    (by intro i h1 h2; interval_cases i <;> decide)
    (Or.inr (by decide))
    (by decide)
    (by omega) (by omega)
  exact ⟨h.1, h.2.1⟩

/-- With the cursor strictly beyond the row length, the backward probe
at index col - 1 is out of range and reads as not word-constituent, so
the backward scan does not move. -/
lemma scanBack_beyond (ln : List Char) (col : Nat) (h : ln.length < col) :
    scanBack ln col = col := by
  cases col with
  | zero => omega
  | succ s =>
    rw [scanBack, if_neg]
    rw [List.getElem?_eq_none (by omega)]
    simp

/-- With the cursor at or beyond the row length, the forward scan does
not move. -/
lemma scanFwd_beyond (ln : List Char) (col : Nat) (h : ln.length ≤ col) :
    scanFwd ln col = col := by
  unfold scanFwd
  rw [Nat.sub_eq_zero_of_le h]
  rfl

/-- C2 amended: a hover column strictly greater than the selected row
length yields absence: the backward probe at column - 1 is already out
of range, so neither scan moves and no word is extracted at all.  Only
a column equal to the row length scans backward from the row end. -/
theorem column_beyond_line_absent (text : String) (pline pchar : Nat) (docs : Docs)
    (h : ((linesOf text.data).getD pline []).length < pchar) :
    resolve text pline pchar docs = none := by
  have hempty : wordAt ((linesOf text.data).getD pline []) pchar = [] := by
    unfold wordAt rawWord
    rw [scanBack_beyond _ pchar h, scanFwd_beyond _ pchar (by omega), Nat.sub_self]
    simp [trimMatches]
  unfold resolve resolveLine
  rw [hempty]
  simp

/-- Witness for the amended C2 at column 9 of the single row foo. -/
theorem column_beyond_line_absent_witness :
    resolve "foo" 0 9 dFoo = none :=
  column_beyond_line_absent "foo" 0 9 dFoo (by decide)

/-- C2 counterexample: on the row foo (length 3) with foo in the
dictionary, column 4 is strictly beyond the row length; pointing at
the end of the row (column 3) extracts foo and hits the dictionary,
but column 4 returns absence instead of that end-of-row behavior. -/
theorem column_beyond_line_counterexample :
    resolve "foo" 0 4 dFoo = none ∧
    resolve "foo" 0 3 dFoo = some ⟨"Foo docs", 0, 0, 0, 3⟩ :=
  ⟨rfl, rfl⟩

/-- C1 counterexample: with dictionary entry foo and document text
call("foo"), a hover at row 0 column 7 does not return the claimed
range of columns 6 to 11 covering the quotes. -/
theorem quoted_token_range_counterexample :
    (hover fCall dFoo "file:///a" 0 7).1 ≠
      Except.ok (some ⟨"Foo docs", 0, 6, 0, 11⟩) := by
  intro hclaim
  have hval : (hover fCall dFoo "file:///a" 0 7).1 =
      Except.ok (some ⟨"Foo docs", 0, 6, 0, 9⟩) := rfl
  rw [hval] at hclaim
  simp at hclaim

/-- C1 amended: the hit has payload Foo docs but its range covers only
the three characters of the inner word foo, columns 6 to 9; the quotes
are excluded because the double quote is not word-constituent, so the
scans never cross it and the lookup key equals the range text. -/
theorem quoted_token_range_amended :
    (hover fCall dFoo "file:///a" 0 7).1 =
      Except.ok (some ⟨"Foo docs", 0, 6, 0, 9⟩) := rfl

/-- On the empty row both scans stay put and the word is empty. -/
lemma wordAt_nil (col : Nat) : wordAt ([] : List Char) col = [] := by
  unfold wordAt rawWord
  simp [trimMatches]

/-- C7: hover never produces an error: the result is always Ok, the
files map is left unchanged for subsequent requests, and each failure
mode (missing document, row index out of range, empty extracted word,
dictionary miss) yields Ok(None). -/
theorem hover_total_no_error (files : Store) (docs : Docs) (uri : String)
    (pline pchar : Nat) :
    (∃ o, (hover files docs uri pline pchar).1 = Except.ok o) ∧
    (hover files docs uri pline pchar).2 = files ∧
    (files uri = none → (hover files docs uri pline pchar).1 = Except.ok none) ∧
    (∀ text, files uri = some text → (linesOf text.data).length ≤ pline →
      (hover files docs uri pline pchar).1 = Except.ok none) ∧
    (∀ text, files uri = some text →
      wordAt ((linesOf text.data).getD pline []) pchar = [] →
      (hover files docs uri pline pchar).1 = Except.ok none) ∧
    (∀ text, files uri = some text →
      docs.get (String.mk (wordAt ((linesOf text.data).getD pline []) pchar)) = none →
      (hover files docs uri pline pchar).1 = Except.ok none) := by
  cases hf : files uri with
  | none =>
    refine ⟨⟨none, by simp [hover, hf]⟩, by simp [hover, hf], fun _ => by simp [hover, hf],
      ?_, ?_, ?_⟩
    · intro text htext
      exact absurd htext (by simp)
    · intro text htext
      exact absurd htext (by simp)
    · intro text htext
      exact absurd htext (by simp)
  | some text0 =>
    have hres : hover files docs uri pline pchar =
        (Except.ok (resolve text0 pline pchar docs), files) := by
      simp [hover, hf]
    refine ⟨⟨resolve text0 pline pchar docs, by rw [hres]⟩, by rw [hres], ?_, ?_, ?_, ?_⟩
    · intro hnone
      exact absurd hnone (by simp)
    · intro text htext hlen
      have ht : text0 = text := Option.some.inj htext
      subst ht
      rw [hres]
      unfold resolve
      rw [List.getD_eq_default _ _ hlen, resolveLine, wordAt_nil]
      simp
    · intro text htext hword
      have ht : text0 = text := Option.some.inj htext
      subst ht
      rw [hres]
      unfold resolve resolveLine
      rw [hword]
      simp
    · intro text htext hmiss
      have ht : text0 = text := Option.some.inj htext
      subst ht
      rw [hres]
      unfold resolve resolveLine
      split
      · rfl
      · rw [hmiss]

/-- Witness for C7: a hover for a never-opened document yields Ok with
no payload and leaves the store unchanged. -/
theorem hover_total_no_error_witness :
    (hover (fun _ => none) dFoo "file:///a" 0 0).1 = Except.ok none ∧
    (hover (fun _ => none) dFoo "file:///a" 0 0).2 = (fun _ => none) :=
  ⟨(hover_total_no_error (fun _ => none) dFoo "file:///a" 0 0).2.2.1 rfl,
   (hover_total_no_error (fun _ => none) dFoo "file:///a" 0 0).2.1⟩

/-- C8: loading fails with the contextualized error exactly when the
resource read fails or the toml parse fails; and main serves only in
the success case, exiting with the load error otherwise, so no request
is ever served without a loaded dictionary. -/
theorem docs_load_config_error (fsRead : String → Option String)
    (parseToml : String → Option Docs) (envDocs : Option String) :
    ((∃ e, Docs.load fsRead parseToml (envDocs.getD "docs/alloy-hover.toml") =
        Except.error e) ↔
      (fsRead (envDocs.getD "docs/alloy-hover.toml") = none ∨
        ∃ t, fsRead (envDocs.getD "docs/alloy-hover.toml") = some t ∧
          parseToml t = none)) ∧
    (∀ e, main fsRead parseToml envDocs = MainOutcome.exited e →
      Docs.load fsRead parseToml (envDocs.getD "docs/alloy-hover.toml") =
        Except.error e) ∧
    (∀ d, main fsRead parseToml envDocs = MainOutcome.served d →
      Docs.load fsRead parseToml (envDocs.getD "docs/alloy-hover.toml") =
        Except.ok d) := by
  cases hr : fsRead (envDocs.getD "docs/alloy-hover.toml") with
  | none =>
    refine ⟨by simp [Docs.load, hr], ?_, ?_⟩
    · intro e he
      unfold main Docs.load at he
      rw [hr] at he
      simp at he
      simp [Docs.load, hr, he]
    · intro d hd
      unfold main Docs.load at hd
      rw [hr] at hd
      simp at hd
  | some t0 =>
    cases hp : parseToml t0 with
    | none =>
      refine ⟨?_, ?_, ?_⟩
      · simp [Docs.load, hr, hp]
      · intro e he
        simp [main, Docs.load, hr, hp] at he
        simp [Docs.load, hr, hp, he]
      · intro d hd
        simp [main, Docs.load, hr, hp] at hd
    | some m =>
      refine ⟨?_, ?_, ?_⟩
      · simp [Docs.load, hr, hp]
      · intro e he
        simp [main, Docs.load, hr, hp] at he
      · intro d hd
        simp [main, Docs.load, hr, hp] at hd
        simp [Docs.load, hr, hp, hd]

/-- Witness for C8: with an unreadable resource the load fails and the
process exits before serving. -/
theorem docs_load_config_error_witness :
    (∃ e, Docs.load (fun _ => none) (fun _ => none) "docs/alloy-hover.toml" =
      Except.error e) ∧
    main (fun _ => none) (fun _ => none) none =
      MainOutcome.exited "reading docs/alloy-hover.toml" :=
  ⟨(docs_load_config_error (fun _ => none) (fun _ => none) none).1.mpr (Or.inl rfl),
   rfl⟩

end AlloyHover
